import Mathlib

/-!
A shallow embedding of the `sorted-list` Rust crate (`src/lib.rs`): a
`SortedList<K, V>` stores two parallel growable vectors `keys` and `values`,
ordered by key and, within a run of equal keys, by insertion order.

Conventions of the embedding:
* `Vec<K>` / `Vec<V>` are `List K` / `List V`.
* Rust `K: Ord` is `[LinearOrder K]`, Rust `V: PartialEq` is `[DecidableEq V]`.
* Loops over index ranges are written with an explicit fuel argument so that
  every definition is structurally recursive and evaluates by `decide`; the
  wrapper always passes fuel that dominates the loop's iteration count, and
  the exhaustion branch returns exactly the value the loop would exit with
  (the interval is empty once the fuel computed from it runs out).
* A Rust index-out-of-bounds panic inside `range` is modelled as `none`.
* Iterators are collected to the lists they yield.
-/

/-- Rust `Vec::insert(index, element)`: shift everything from `index` on one
step to the right.  Exact for `index ≤ len`; Rust panics for `index > len`,
which no call site below reaches (binary search and the duplicate scan only
produce in-range indices). -/
def vecInsert {α : Type} (index : Nat) (x : α) (xs : List α) : List α :=
  xs.take index ++ x :: xs.drop index

/-- The store of the crate: `struct SortedList<K, V>` with its two parallel
vectors. -/
structure SortedList (K V : Type) where
  keys : List K
  values : List V
deriving DecidableEq, Repr

/-- Rust `SortedList::new`. -/
def SortedList.new {K V : Type} : SortedList K V := ⟨[], []⟩

/-- Rust `SortedList::len`: the number of tuples. -/
def SortedList.len {K V : Type} (l : SortedList K V) : Nat := l.keys.length

variable {K V : Type} [LinearOrder K] [DecidableEq V]

/-- The loop of Rust `slice::binary_search` on the half-open interval
`[left, right)` of `keys`: probe `left + (right - left) / 2`, narrow to the
half that can contain `k`, answer `Except.ok index` on a hit and
`Except.error insertion-point` when the interval empties.  Each iteration
shrinks the interval by at least one, so fuel `right - left` suffices; on
exhaustion the interval is empty and `Except.error left` is the loop's own
exit value. -/
def binarySearchGo (keys : List K) (k : K) : Nat → Nat → Nat → Except Nat Nat
  | fuel + 1, left, right =>
    if left < right then
      match keys[left + (right - left) / 2]? with
      | some x =>
        if x < k then binarySearchGo keys k fuel (left + (right - left) / 2 + 1) right
        else if k < x then binarySearchGo keys k fuel left (left + (right - left) / 2)
        else .ok (left + (right - left) / 2)
      | none => .error left
    else .error left
  | 0, left, _ => .error left

/-- Rust `self.keys.binary_search(&key)`. -/
def binary_search (keys : List K) (k : K) : Except Nat Nat :=
  binarySearchGo keys k keys.length 0 keys.length

/-- Helper value for knowing where to insert the value
(`enum InsertionPosition`). -/
inductive InsertionPosition
  | Before (index : Nat)
  | Last
deriving DecidableEq, Repr

/-- Rust `InsertionPosition::insert`: `Before index` inserts at `index - 1`
in both vectors, `Last` pushes onto both ends.  (The `assert_eq!` on the two
lengths in the source is an invariant check, not behaviour.) -/
def InsertionPosition.insert (self : InsertionPosition) (key : K) (value : V)
    (keys : List K) (values : List V) : List K × List V :=
  match self with
  | .Before index => (vecInsert (index - 1) key keys, vecInsert (index - 1) value values)
  | .Last => (keys ++ [key], values ++ [value])

/-- The loop of `SortedList::find_insertion_positition`: `ks` and `vs` are
the two iterators after `skip(from)` and `index` is the running counter, equal
to the absolute position of the current heads.  The Rust loop increments
`index` before inspecting, so `Before (index + 1)` means "insert at the
position just inspected".  The source declares the two iterators running out
of step `unreachable!`; that cannot happen for a store whose columns have
equal length, and the embedding answers `some .Last` there. -/
def fipGo (key : K) (value : V) : List K → List V → Nat → Option InsertionPosition
  | other_key :: ks, other_value :: vs, index =>
    if key = other_key then
      if value = other_value then none
      else fipGo key value ks vs (index + 1)
    else some (.Before (index + 1))
  | [], [], _ => some .Last
  | _, _, _ => some .Last

/-- Rust `SortedList::find_insertion_positition` (name as in the source):
scan forward from `fromIdx` comparing keys and values. -/
def SortedList.find_insertion_positition (l : SortedList K V) (fromIdx : Nat)
    (key : K) (value : V) : Option InsertionPosition :=
  fipGo key value (l.keys.drop fromIdx) (l.values.drop fromIdx) fromIdx

/-- Rust `SortedList::insert`, returning the updated store together with the
boolean result. -/
def SortedList.insert (l : SortedList K V) (key : K) (value : V) :
    SortedList K V × Bool :=
  match binary_search l.keys key with
  | .ok found_at =>
    match l.find_insertion_positition found_at key value with
    | some insertion_position =>
      let kv := insertion_position.insert key value l.keys l.values
      (⟨kv.1, kv.2⟩, true)
    | none => (l, false)
  | .error insert_at =>
    (⟨vecInsert insert_at key l.keys, vecInsert insert_at value l.values⟩, true)

/-- Rust `SortedList::iter` (the `Tuples` iterator), collected: the two
columns read in lock-step, which for equally long columns is their zip. -/
def SortedList.iter (l : SortedList K V) : List (K × V) := l.keys.zip l.values

/-- Rust `SortedList::values_of` (the `ValuesOf` iterator), collected: find
the first position holding `key` by a linear scan over `keys`; if there is
none the iterator is empty, otherwise skip the full iteration there and yield
values as long as the key still matches. -/
def SortedList.values_of (l : SortedList K V) (key : K) : List V :=
  match l.keys.findIdx? (fun existing => decide (key = existing)) with
  | some first =>
    (((l.iter).drop first).takeWhile (fun p => decide (key = p.1))).map Prod.snd
  | none => []

/-- Rust `std::collections::Bound`: one end of a range query. -/
inductive Bound (K : Type)
  | Included (key : K)
  | Excluded (key : K)
  | Unbounded
deriving DecidableEq, Repr

/-- The loop of the local `look_left_from` helper inside `SortedList::range`:
decrement `pos` while the key at `pos` equals `key`.  The probe reads
`vec[pos]` whenever `pos > 0`, so a first call with `pos = vec.len()` (which
`binary_search` produces for a key above every stored key) is out of bounds;
the embedding reports that Rust panic as `none`. -/
def lookLeftGo (key : K) (vec : List K) : Nat → Option Nat
  | pos + 1 =>
    match vec[pos + 1]? with
    | some x => if key = x then lookLeftGo key vec pos else some (pos + 1)
    | none => none
  | 0 => some 0

/-- Rust `look_left_from` inside `SortedList::range`.  The outer option is
the panic (`none` when the loop indexed out of bounds); the inner option is
the function's own result: `none` when the walk stopped at position `0`,
`some (pos + offset)` otherwise. -/
def look_left_from (key : K) (vec : List K) (pos offset : Nat) : Option (Option Nat) :=
  match lookLeftGo key vec pos with
  | none => none
  | some p => some (if p = 0 then none else some (p + offset))

/-- The loop of `look_right_from`: increment `pos` while in bounds and the
key still matches; the bounds test comes first so this loop never faults.
Fuel `vec.length` dominates the iteration count and on exhaustion `pos` is
already `vec.length`, the loop's own exit state. -/
def lookRightGo (key : K) (vec : List K) : Nat → Nat → Nat
  | fuel + 1, pos =>
    match vec[pos]? with
    | some x => if key = x then lookRightGo key vec fuel (pos + 1) else pos
    | none => pos
  | 0, pos => pos

/-- Rust `look_right_from` inside `SortedList::range`: `none` when the walk
ran to the end of the vector, `some pos` otherwise. -/
def look_right_from (key : K) (vec : List K) (pos : Nat) : Option Nat :=
  if lookRightGo key vec vec.length pos = vec.length then none
  else some (lookRightGo key vec vec.length pos)

/-- Rust `SortedList::range` (the `nightly` feature), with the produced
iterator collected to a list: resolve the start bound, resolve the end bound,
then skip and take over the full iteration.  A `none` result models a Rust
panic inside bound resolution. -/
def SortedList.range (l : SortedList K V) (startBound endBound : Bound K) :
    Option (List (K × V)) :=
  let startStep : Option (Option Nat) :=
    match startBound with
    | .Included key =>
      match binary_search l.keys key with
      | .ok pos => (look_left_from key l.keys pos 1).map (fun r => some (r.getD 0))
      | .error pos => look_left_from key l.keys pos 0
    | .Excluded key =>
      match binary_search l.keys key with
      | .ok pos => some (look_right_from key l.keys pos)
      | .error pos => some (look_right_from key l.keys pos)
    | .Unbounded => some (some 0)
  match startStep with
  | none => none
  | some start =>
    let endStep : Option Nat :=
      match endBound with
      | .Included key =>
        match binary_search l.keys key with
        | .ok pos => some ((look_right_from key l.keys pos).getD l.keys.length)
        | .error pos => some ((look_right_from key l.keys pos).getD l.keys.length)
      | .Excluded key =>
        match binary_search l.keys key with
        | .ok pos => (look_left_from key l.keys pos 1).map (fun r => r.getD l.keys.length)
        | .error pos => (look_left_from key l.keys pos 0).map (fun r => r.getD l.keys.length)
      | .Unbounded => some l.len
    match endStep with
    | none => none
    | some stop =>
      let skip := start.getD l.keys.length
      some (((l.iter).drop skip).take (if stop ≤ skip then 0 else stop - skip))

/-- Rust `Vec::sort_by_key` as used by `Extend::extend`: a stable sort
comparing only the keys, modelled by the stable `List.mergeSort`. -/
def sortByKey (batch : List (K × V)) : List (K × V) :=
  batch.mergeSort (fun a b => decide (a.1 ≤ b.1))

/-- The `for` loop of `Extend::extend` (and one-by-one insertion in general):
insert the pairs left to right, discarding each boolean result. -/
def insertAll (l : SortedList K V) : List (K × V) → SortedList K V
  | [] => l
  | p :: ps => insertAll (l.insert p.1 p.2).1 ps

/-- Rust `Extend::extend for SortedList`: collect the batch, stable-sort it
by key, then insert every pair in turn. -/
def SortedList.extend (l : SortedList K V) (batch : List (K × V)) : SortedList K V :=
  insertAll l (sortByKey batch)

/-- One mutating call against the store; the public mutators are `insert`
and `extend`. -/
inductive Op (K V : Type)
  | insert (key : K) (value : V)
  | extend (batch : List (K × V))

/-- Run one mutating call. -/
def applyOp (l : SortedList K V) : Op K V → SortedList K V
  | .insert k v => (l.insert k v).1
  | .extend batch => l.extend batch

/-- Run a whole history of mutating calls against the empty store. -/
def applyOps (ops : List (Op K V)) : SortedList K V :=
  ops.foldl applyOp SortedList.new

/-- The values the full iteration yields for one key, in store order. -/
def valuesOfKey (l : SortedList K V) (key : K) : List V :=
  ((l.iter).filter (fun p => decide (p.1 = key))).map Prod.snd

/-- The pairs of an insertion history that `insert` accepted (returned
`true`), in call order, threading the store state through the calls. -/
def successfulInserts (l : SortedList K V) : List (K × V) → List (K × V)
  | [] => []
  | p :: ps =>
    (if (l.insert p.1 p.2).2 then [p] else []) ++
      successfulInserts (l.insert p.1 p.2).1 ps

example :
    (insertAll (SortedList.new : SortedList Nat Nat) [(0, 0), (1, 1), (0, 2)]).iter =
      [(0, 0), (0, 2), (1, 1)] := by decide

example :
    (insertAll (SortedList.new : SortedList Nat Nat) [(3, 7), (0, 0), (1, 4), (0, 1)]).iter =
      [(0, 0), (0, 1), (1, 4), (3, 7)] := by decide

example :
    ((insertAll (SortedList.new : SortedList Nat Nat) [(1, 4)]).insert 1 4).2 = false := by
  decide

/-! ### Basic facts about the building blocks -/

theorem vecInsert_length {α : Type} (index : Nat) (x : α) (xs : List α) :
    (vecInsert index x xs).length = xs.length + 1 := by
  simp [vecInsert]; omega

theorem sorted_le_of_getElem? {keys : List K} (hs : keys.Sorted (· ≤ ·))
    {i j : Nat} {a b : K} (hij : i ≤ j) (ha : keys[i]? = some a)
    (hb : keys[j]? = some b) : a ≤ b := by
  rcases Nat.lt_or_ge i j with hlt | hge
  · rw [List.getElem?_eq_some_iff] at ha hb
    obtain ⟨hi, rfl⟩ := ha
    obtain ⟨hj, rfl⟩ := hb
    exact List.pairwise_iff_getElem.mp hs i j hi hj hlt
  · have hij' : i = j := le_antisymm hij hge
    subst hij'
    rw [ha] at hb
    exact le_of_eq (Option.some.inj hb)

theorem binarySearchGo_ok {keys : List K} {k : K} :
    ∀ {fuel left right i : Nat}, binarySearchGo keys k fuel left right = .ok i →
      keys[i]? = some k := by
  intro fuel
  induction fuel with
  | zero => intro left right i h; simp [binarySearchGo] at h
  | succ n ih =>
    intro left right i h
    rw [binarySearchGo] at h
    split at h
    · split at h
      next x hx =>
        split at h
        · exact ih h
        · split at h
          · exact ih h
          · cases h
            have hxk : x = k := le_antisymm (not_lt.mp (by assumption)) (not_lt.mp (by assumption))
            rw [hx, hxk]
      next hx => cases h
    · cases h

theorem binarySearchGo_err {keys : List K} {k : K} (hs : keys.Sorted (· ≤ ·)) :
    ∀ {fuel left right i : Nat}, right - left ≤ fuel → left ≤ right →
      right ≤ keys.length →
      (∀ j x, j < left → keys[j]? = some x → x < k) →
      (∀ j x, right ≤ j → keys[j]? = some x → k < x) →
      binarySearchGo keys k fuel left right = .error i →
      (∀ j x, j < i → keys[j]? = some x → x < k) ∧
      (∀ j x, i ≤ j → keys[j]? = some x → k < x) ∧ i ≤ keys.length := by
  intro fuel
  induction fuel with
  | zero =>
    intro left right i hfuel hlr hrlen hleft hright h
    rw [binarySearchGo] at h
    injection h with h
    subst h
    refine ⟨hleft, ?_, by omega⟩
    intro j x hj hx
    exact hright j x (by omega) hx
  | succ n ih =>
    intro left right i hfuel hlr hrlen hleft hright h
    rw [binarySearchGo] at h
    split at h
    next hcond =>
      split at h
      next x hx =>
        have hmlt : left + (right - left) / 2 < right := by omega
        have hmge : left ≤ left + (right - left) / 2 := by omega
        split at h
        next hxk =>
          refine ih (by omega) (by omega) hrlen ?_ hright h
          intro j y hj hy
          exact lt_of_le_of_lt (sorted_le_of_getElem? hs (by omega) hy hx) hxk
        next hxk =>
          split at h
          next hkx =>
            refine ih (by omega) (by omega) (by omega) hleft ?_ h
            intro j y hj hy
            exact lt_of_lt_of_le hkx (sorted_le_of_getElem? hs (by omega) hx hy)
          next hkx => cases h
      next hx =>
        injection h with h
        subst h
        rw [List.getElem?_eq_none_iff] at hx
        omega
    next hcond =>
      injection h with h
      subst h
      refine ⟨hleft, ?_, by omega⟩
      intro j x hj hx
      exact hright j x (by omega) hx

theorem binary_search_ok {keys : List K} {k : K} {i : Nat}
    (h : binary_search keys k = .ok i) : keys[i]? = some k :=
  binarySearchGo_ok h

theorem binary_search_err {keys : List K} {k : K} {i : Nat} (hs : keys.Sorted (· ≤ ·))
    (h : binary_search keys k = .error i) :
    (∀ j x, j < i → keys[j]? = some x → x < k) ∧
    (∀ j x, i ≤ j → keys[j]? = some x → k < x) ∧ i ≤ keys.length := by
  refine binarySearchGo_err hs (le_refl _) (Nat.zero_le _) (le_refl _) ?_ ?_ h
  · intro j x hj hx; omega
  · intro j x hj hx
    rw [List.getElem?_eq_some_iff] at hx
    obtain ⟨hlt, _⟩ := hx
    omega

theorem fipGo_before {k : K} {v : V} :
    ∀ {ks : List K} {vs : List V} {i m : Nat}, ks.length = vs.length →
      fipGo k v ks vs i = some (.Before m) →
      ∃ r, m = i + r + 1 ∧ (∀ j, j < r → ks[j]? = some k) ∧
        ∃ x, ks[r]? = some x ∧ x ≠ k := by
  intro ks
  induction ks with
  | nil =>
    intro vs i m hlen h
    cases vs with
    | nil => rw [fipGo] at h; cases h
    | cons v' vs => simp at hlen
  | cons k' ks ih =>
    intro vs i m hlen h
    cases vs with
    | nil => simp at hlen
    | cons v' vs =>
      rw [fipGo] at h
      split at h
      next hk =>
        split at h
        next => cases h
        next hv =>
          obtain ⟨r, hm, hall, x, hx, hxk⟩ := ih (by simpa using hlen) h
          refine ⟨r + 1, by omega, ?_, x, by simpa using hx, hxk⟩
          intro j hj
          cases j with
          | zero => simp [hk]
          | succ j' => simpa using hall j' (by omega)
      next hk =>
        injection h with h
        injection h with h
        exact ⟨0, by omega, fun j hj => absurd hj (by omega),
          k', by simp, fun he => hk he.symm⟩

theorem fipGo_last {k : K} {v : V} :
    ∀ {ks : List K} {vs : List V} {i : Nat}, ks.length = vs.length →
      fipGo k v ks vs i = some .Last →
      ∀ (j : Nat) (x : K), ks[j]? = some x → x = k := by
  intro ks
  induction ks with
  | nil => intro vs i hlen h j x hx; simp at hx
  | cons k' ks ih =>
    intro vs i hlen h
    cases vs with
    | nil => simp at hlen
    | cons v' vs =>
      rw [fipGo] at h
      split at h
      next hk =>
        split at h
        next => cases h
        next hv =>
          intro j x hx
          cases j with
          | zero =>
            simp at hx
            subst hk
            exact hx.symm
          | succ j' => exact ih (by simpa using hlen) h j' x (by simpa using hx)
      next hk => cases h

/-! ### The central characterization of `insert` -/

/-- The behaviour of one `insert` on a well-formed store: the call either
rejects the pair and leaves the store untouched, or splices `(k, v)` into
both columns at one position `p` that lies after every stored key `≤ k` and
before every stored key `> k`. -/
theorem insert_spec (l : SortedList K V) (k : K) (v : V)
    (hs : l.keys.Sorted (· ≤ ·)) (hlen : l.keys.length = l.values.length) :
    ((l.insert k v).2 = false ∧ (l.insert k v).1 = l) ∨
    ((l.insert k v).2 = true ∧ ∃ p, p ≤ l.keys.length ∧
      (∀ (j : Nat) (x : K), j < p → l.keys[j]? = some x → x ≤ k) ∧
      (∀ (j : Nat) (x : K), p ≤ j → l.keys[j]? = some x → k < x) ∧
      (l.insert k v).1.keys = l.keys.take p ++ k :: l.keys.drop p ∧
      (l.insert k v).1.values = l.values.take p ++ v :: l.values.drop p) := by
  simp only [SortedList.insert]
  split
  next f hbs =>
    have hf := binary_search_ok hbs
    split
    next ip hfip =>
      rw [SortedList.find_insertion_positition] at hfip
      have hlen' : (l.keys.drop f).length = (l.values.drop f).length := by
        simp [hlen]
      cases ip with
      | Before m =>
        obtain ⟨r, hm, hall, x, hx, hxk⟩ := fipGo_before hlen' hfip
        rw [List.getElem?_drop] at hx
        right
        have hplen : f + r < l.keys.length := (List.getElem?_eq_some_iff.mp hx).1
        refine ⟨rfl, f + r, by omega, ?_, ?_, ?_, ?_⟩
        · intro j y hj hy
          rcases le_or_lt j f with hjf | hjf
          · exact sorted_le_of_getElem? hs hjf hy hf
          · have hr := hall (j - f) (by omega)
            rw [List.getElem?_drop] at hr
            have hjeq : f + (j - f) = j := by omega
            rw [hjeq, hy] at hr
            exact le_of_eq (Option.some.inj hr)
        · intro j y hj hy
          have hkx : k < x :=
            lt_of_le_of_ne (sorted_le_of_getElem? hs (by omega) hf hx) (Ne.symm hxk)
          exact lt_of_lt_of_le hkx (sorted_le_of_getElem? hs hj hx hy)
        · simp only [InsertionPosition.insert]
          have hm1 : m - 1 = f + r := by omega
          simp [vecInsert, hm1]
        · simp only [InsertionPosition.insert]
          have hm1 : m - 1 = f + r := by omega
          simp [vecInsert, hm1]
      | Last =>
        have hall := fipGo_last hlen' hfip
        right
        refine ⟨rfl, l.keys.length, le_refl _, ?_, ?_, ?_, ?_⟩
        · intro j y hj hy
          rcases le_or_lt j f with hjf | hjf
          · exact sorted_le_of_getElem? hs hjf hy hf
          · refine le_of_eq (hall (j - f) y ?_)
            rw [List.getElem?_drop]
            have hjeq : f + (j - f) = j := by omega
            rw [hjeq]; exact hy
        · intro j y hj hy
          have := (List.getElem?_eq_some_iff.mp hy).1
          omega
        · simp [InsertionPosition.insert]
        · simp only [InsertionPosition.insert]
          rw [hlen]
          simp
    next hfip => left; exact ⟨rfl, rfl⟩
  next i hbs =>
    obtain ⟨hlt, hgt, hle⟩ := binary_search_err hs hbs
    right
    exact ⟨rfl, i, hle, fun j x hj hx => le_of_lt (hlt j x hj hx), hgt, rfl, rfl⟩

/-- One `insert` keeps the keys sorted and the two columns equally long. -/
theorem insert_invariants (l : SortedList K V) (k : K) (v : V)
    (hs : l.keys.Sorted (· ≤ ·)) (hlen : l.keys.length = l.values.length) :
    ((l.insert k v).1.keys.Sorted (· ≤ ·)) ∧
    ((l.insert k v).1.keys.length = (l.insert k v).1.values.length) := by
  rcases insert_spec l k v hs hlen with ⟨_, heq⟩ | ⟨_, p, hp, hle, hgt, hk, hv⟩
  · rw [heq]; exact ⟨hs, hlen⟩
  · constructor
    · rw [hk]
      rw [List.Sorted] at hs ⊢
      rw [List.pairwise_append]
      refine ⟨List.Pairwise.sublist (List.take_sublist _ _) hs, ?_, ?_⟩
      · rw [List.pairwise_cons]
        refine ⟨?_, List.Pairwise.sublist (List.drop_sublist _ _) hs⟩
        intro b hb
        obtain ⟨j, hj⟩ := List.mem_iff_getElem?.mp hb
        rw [List.getElem?_drop] at hj
        exact le_of_lt (hgt (p + j) b (by omega) hj)
      · intro a ha b hb
        obtain ⟨j, hj⟩ := List.mem_iff_getElem?.mp ha
        rw [List.getElem?_take] at hj
        split at hj
        next hjp =>
          have hak : a ≤ k := hle j a hjp hj
          rcases List.mem_cons.mp hb with rfl | hb'
          · exact hak
          · obtain ⟨j', hj'⟩ := List.mem_iff_getElem?.mp hb'
            rw [List.getElem?_drop] at hj'
            exact le_trans hak (le_of_lt (hgt (p + j') b (by omega) hj'))
        next => cases hj
    · rw [hk, hv]
      simp
      omega

omit [DecidableEq V] in
/-- Behind position `p`, every stored key (hence every zipped pair) exceeds
`k`. -/
theorem mem_zip_drop_gt {ks : List K} {vs : List V} {p : Nat} {k : K}
    (hgt : ∀ (j : Nat) (x : K), p ≤ j → ks[j]? = some x → k < x) :
    ∀ y ∈ (ks.drop p).zip (vs.drop p), k < y.1 := by
  intro y hy
  obtain ⟨a, b⟩ := y
  have ha := (List.of_mem_zip hy).1
  obtain ⟨j, hj⟩ := List.mem_iff_getElem?.mp ha
  rw [List.getElem?_drop] at hj
  exact hgt (p + j) a (by omega) hj

/-- A successful `insert k v` appends `v` at the end of key `k`'s group of
the full iteration and leaves every other key's group unchanged. -/
theorem insert_valuesOfKey (l : SortedList K V) (k : K) (v : V) (k' : K)
    (hs : l.keys.Sorted (· ≤ ·)) (hlen : l.keys.length = l.values.length)
    (htrue : (l.insert k v).2 = true) :
    valuesOfKey (l.insert k v).1 k' =
      valuesOfKey l k' ++ if k = k' then [v] else [] := by
  rcases insert_spec l k v hs hlen with ⟨hfalse, _⟩ | ⟨_, p, hp, hle, hgt, hk, hv⟩
  · rw [htrue] at hfalse; cases hfalse
  · have hlt : min p l.keys.length = min p l.values.length := by rw [hlen]
    have hzip : (l.insert k v).1.iter =
        (l.keys.take p).zip (l.values.take p) ++
          (k, v) :: (l.keys.drop p).zip (l.values.drop p) := by
      rw [SortedList.iter, hk, hv, List.zip_append (by simp [hlt])]
      simp
    have hiter : l.iter =
        (l.keys.take p).zip (l.values.take p) ++
          (l.keys.drop p).zip (l.values.drop p) := by
      conv_lhs =>
        rw [SortedList.iter, ← List.take_append_drop p l.keys,
          ← List.take_append_drop p l.values]
      rw [List.zip_append (by simp [hlt])]
    have hdrop : ((l.keys.drop p).zip (l.values.drop p)).filter
        (fun y => decide (y.1 = k')) = [] ∨ k ≠ k' := by
      by_cases hkk : k = k'
      · left
        rw [List.filter_eq_nil_iff]
        intro y hy
        have := mem_zip_drop_gt hgt y hy
        simp only [decide_eq_true_eq]
        intro hyk
        rw [← hkk] at hyk
        exact absurd hyk (ne_of_gt this)
      · right; exact hkk
    rw [valuesOfKey, valuesOfKey, hzip, hiter, List.filter_append,
      List.filter_append, List.filter_cons]
    by_cases hkk : k = k'
    · subst hkk
      rcases hdrop with hnil | hne
      · simp [hnil]
      · exact absurd rfl hne
    · simp [hkk]

/-- A rejected `insert` leaves the store untouched (the `false` branch of the
code returns the store as-is and mutates nothing). -/
theorem insert_false_eq (l : SortedList K V) (k : K) (v : V)
    (hfalse : (l.insert k v).2 = false) : (l.insert k v).1 = l := by
  cases hbs : binary_search l.keys k with
  | ok f =>
    cases hfip : l.find_insertion_positition f k v with
    | some ip => simp [SortedList.insert, hbs, hfip] at hfalse
    | none => simp [SortedList.insert, hbs, hfip]
  | error i => simp [SortedList.insert, hbs] at hfalse

/-- An accepted `insert` grows the store by exactly one tuple: both code
paths splice a single element into each column. -/
theorem insert_true_len (l : SortedList K V) (k : K) (v : V)
    (htrue : (l.insert k v).2 = true) :
    (l.insert k v).1.len = l.len + 1 := by
  cases hbs : binary_search l.keys k with
  | ok f =>
    cases hfip : l.find_insertion_positition f k v with
    | some ip =>
      cases ip with
      | Before m =>
        simp [SortedList.insert, hbs, hfip, SortedList.len,
          InsertionPosition.insert, vecInsert_length]
      | Last =>
        simp [SortedList.insert, hbs, hfip, SortedList.len,
          InsertionPosition.insert]
    | none => simp [SortedList.insert, hbs, hfip] at htrue
  | error i => simp [SortedList.insert, hbs, SortedList.len, vecInsert_length]

/-- Folding `insert` over a batch keeps the invariants. -/
theorem insertAll_invariants :
    ∀ (ps : List (K × V)) (l : SortedList K V),
      l.keys.Sorted (· ≤ ·) → l.keys.length = l.values.length →
      ((insertAll l ps).keys.Sorted (· ≤ ·)) ∧
      ((insertAll l ps).keys.length = (insertAll l ps).values.length) := by
  intro ps
  induction ps with
  | nil => intro l hs hlen; exact ⟨hs, hlen⟩
  | cons p ps ih =>
    intro l hs hlen
    rw [insertAll]
    obtain ⟨hs', hlen'⟩ := insert_invariants l p.1 p.2 hs hlen
    exact ih _ hs' hlen'

/-- Folding `insert` over a batch appends, for every key, exactly the values
of the accepted pairs carrying that key, in call order. -/
theorem insertAll_valuesOfKey (k : K) :
    ∀ (ps : List (K × V)) (l : SortedList K V),
      l.keys.Sorted (· ≤ ·) → l.keys.length = l.values.length →
      valuesOfKey (insertAll l ps) k =
        valuesOfKey l k ++
          ((successfulInserts l ps).filter (fun p => decide (p.1 = k))).map Prod.snd := by
  intro ps
  induction ps with
  | nil => intro l hs hlen; simp [insertAll, successfulInserts]
  | cons p ps ih =>
    intro l hs hlen
    obtain ⟨hs', hlen'⟩ := insert_invariants l p.1 p.2 hs hlen
    rw [insertAll, successfulInserts, ih _ hs' hlen']
    cases htrue : (l.insert p.1 p.2).2 with
    | true =>
      rw [insert_valuesOfKey l p.1 p.2 k hs hlen htrue]
      by_cases hpk : p.1 = k
      · simp [htrue, hpk, List.filter_cons, List.append_assoc]
      · simp [htrue, hpk, List.filter_cons]
    | false =>
      simp [htrue, insert_false_eq l p.1 p.2 htrue]

/-- Every mutation history keeps the invariants. -/
theorem applyOps_invariants :
    ∀ (ops : List (Op K V)) (l : SortedList K V),
      l.keys.Sorted (· ≤ ·) → l.keys.length = l.values.length →
      ((ops.foldl applyOp l).keys.Sorted (· ≤ ·)) ∧
      ((ops.foldl applyOp l).keys.length = (ops.foldl applyOp l).values.length) := by
  intro ops
  induction ops with
  | nil => intro l hs hlen; exact ⟨hs, hlen⟩
  | cons op ops ih =>
    intro l hs hlen
    rw [List.foldl_cons]
    cases op with
    | insert k v =>
      obtain ⟨hs', hlen'⟩ := insert_invariants l k v hs hlen
      exact ih _ hs' hlen'
    | extend batch =>
      obtain ⟨hs', hlen'⟩ := insertAll_invariants (sortByKey batch) l hs hlen
      exact ih _ hs' hlen'

/-- C2: After every sequence of `insert` and `extend` operations starting
from `new()`, the key sequence observed via `keys()` is non-decreasing under
the key type's total order. -/
theorem claim_c2 (ops : List (Op K V)) :
    ((applyOps ops).keys.Sorted (· ≤ ·)) :=
  (applyOps_invariants ops SortedList.new List.Pairwise.nil rfl).1

/-- C3: After every sequence of `insert` calls starting from `new()`, the
full iteration yields, for each key, exactly the values of the successfully
inserted pairs with that key, in the order those pairs were inserted. -/
theorem claim_c3 (ps : List (K × V)) (k : K) :
    valuesOfKey (insertAll SortedList.new ps) k =
      ((successfulInserts SortedList.new ps).filter
        (fun p => decide (p.1 = k))).map Prod.snd := by
  have h := insertAll_valuesOfKey k ps SortedList.new List.Pairwise.nil rfl
  simpa [valuesOfKey, SortedList.new, SortedList.iter] using h

/-- C9: If `insert` returns `true` the length grows by exactly one; if it
returns `false` the store - both columns - is unchanged. -/
theorem claim_c9 (l : SortedList K V) (k : K) (v : V) :
    ((l.insert k v).2 = true → (l.insert k v).1.len = l.len + 1) ∧
    ((l.insert k v).2 = false → (l.insert k v).1 = l) :=
  ⟨insert_true_len l k v, insert_false_eq l k v⟩

/-- C9 witness: a concrete accepted insert grows the length by one, and a
concrete rejected insert leaves the store unchanged. -/
theorem claim_c9_witness :
    (((SortedList.new : SortedList Nat Nat).insert 0 5).2 = true ∧
      ((SortedList.new : SortedList Nat Nat).insert 0 5).1.len =
        (SortedList.new : SortedList Nat Nat).len + 1) ∧
    (((insertAll (SortedList.new : SortedList Nat Nat) [(1, 4)]).insert 1 4).2 = false ∧
      ((insertAll (SortedList.new : SortedList Nat Nat) [(1, 4)]).insert 1 4).1 =
        insertAll (SortedList.new : SortedList Nat Nat) [(1, 4)]) :=
  ⟨⟨by decide, (claim_c9 SortedList.new 0 5).1 (by decide)⟩,
    ⟨by decide, (claim_c9 (insertAll SortedList.new [(1, 4)]) 1 4).2 (by decide)⟩⟩

/-- C6: For every store, `range(Unbounded, Unbounded)` never faults and
yields exactly the full iteration, in the same order. -/
theorem claim_c6 (l : SortedList K V) :
    l.range Bound.Unbounded Bound.Unbounded = some l.iter := by
  simp only [SortedList.range, SortedList.len, SortedList.iter, Option.getD_some,
    List.drop_zero]
  congr 1
  split
  next h =>
    have hnil : l.keys = [] := List.eq_nil_of_length_eq_zero (by omega)
    simp [hnil]
  next h =>
    simp only [Nat.sub_zero]
    refine List.take_of_length_le ?_
    simp only [List.length_zip]
    omega

omit [DecidableEq V] in
/-- A key column sorted non-decreasingly makes the zipped iteration sorted
non-decreasingly in the first components. -/
theorem zip_pairwise_fst {ks : List K} {vs : List V} (hs : ks.Sorted (· ≤ ·)) :
    (ks.zip vs).Pairwise (fun a b => a.1 ≤ b.1) := by
  rw [List.pairwise_iff_getElem]
  intro i j hi hj hij
  rw [List.getElem_zip, List.getElem_zip]
  have hilen : i < ks.length := lt_of_lt_of_le hi (by simp [List.length_zip])
  have hjlen : j < ks.length := lt_of_lt_of_le hj (by simp [List.length_zip])
  exact List.pairwise_iff_getElem.mp hs i j hilen hjlen hij

omit [LinearOrder K] [DecidableEq V] in
/-- Every pair of the zip projects, on the left, an entry of the key column
at the same index. -/
theorem zip_fst_getElem? {ks : List K} {vs : List V} {i : Nat} {y : K × V}
    (h : (ks.zip vs)[i]? = some y) : ks[i]? = some y.1 :=
  (List.getElem?_zip_eq_some.mp h).1

/-- On a suffix whose first components are sorted and all at least `k`, the
filter for key `k` agrees with the stop-at-first-mismatch scan. -/
theorem filter_eq_takeWhile_of_sorted {k : K} :
    ∀ {ys : List (K × V)}, ys.Pairwise (fun a b => a.1 ≤ b.1) →
      (∀ y ∈ ys, k ≤ y.1) →
      ys.filter (fun y => decide (y.1 = k)) =
        ys.takeWhile (fun y => decide (k = y.1)) := by
  intro ys
  induction ys with
  | nil => intro _ _; rfl
  | cons y ys ih =>
    intro hpw hlb
    by_cases hy : y.1 = k
    · have h1 : (decide (y.1 = k)) = true := by simp [hy]
      have h2 : (decide (k = y.1)) = true := by simp [hy]
      have hih := ih (List.pairwise_cons.mp hpw).2
        (fun z hz => hlb z (List.mem_cons_of_mem y hz))
      rw [List.filter_cons, List.takeWhile_cons, h1, h2]
      simp [hih]
    · have hky : k < y.1 := lt_of_le_of_ne (hlb y (List.mem_cons_self y ys)) (Ne.symm hy)
      rw [List.filter_cons, List.takeWhile_cons]
      have h1 : (decide (y.1 = k)) = false := by simp [hy]
      have h2 : (decide (k = y.1)) = false := by simp [ne_of_lt hky]
      rw [h1, h2]
      simp only [Bool.false_eq_true, if_false]
      rw [List.filter_eq_nil_iff]
      intro z hz
      have hyz : y.1 ≤ z.1 := List.rel_of_pairwise_cons hpw hz
      simp only [decide_eq_true_eq]
      exact fun he => absurd he (ne_of_gt (lt_of_lt_of_le hky hyz))

/-- C7: For every well-formed store and every key, `values_of` yields
exactly the values of the subsequence of the full iteration whose key equals
that key, in the same order (and in particular the empty sequence when the
key is absent). -/
theorem claim_c7 (l : SortedList K V) (k : K)
    (hs : l.keys.Sorted (· ≤ ·)) (hlen : l.keys.length = l.values.length) :
    l.values_of k = (l.iter.filter (fun p => decide (p.1 = k))).map Prod.snd := by
  cases hfind : l.keys.findIdx? (fun existing => decide (k = existing)) with
  | none =>
    simp only [SortedList.values_of, hfind]
    have hno := List.findIdx?_eq_none_iff.mp hfind
    rw [List.filter_eq_nil_iff.mpr]
    · rfl
    · intro y hy
      obtain ⟨a, b⟩ := y
      have ha := (List.of_mem_zip hy).1
      have := hno a ha
      simp only [decide_eq_true_eq]
      simp only [decide_eq_false_iff_not] at this
      exact fun he => this he.symm
  | some f =>
    simp only [SortedList.values_of, hfind, SortedList.iter]
    obtain ⟨hflen, hfp, hfmin⟩ := List.findIdx?_eq_some_iff_getElem.mp hfind
    simp only [decide_eq_true_eq] at hfp
    have hfk : l.keys[f]? = some k := by
      rw [List.getElem?_eq_getElem hflen, ← hfp]
    conv_rhs =>
      rw [← List.take_append_drop f (l.keys.zip l.values)]
    rw [List.filter_append]
    have htake : ((l.keys.zip l.values).take f).filter
        (fun p => decide (p.1 = k)) = [] := by
      rw [List.filter_eq_nil_iff]
      intro y hy
      obtain ⟨j, hj⟩ := List.mem_iff_getElem?.mp hy
      rw [List.getElem?_take] at hj
      split at hj
      next hjf =>
        have hkj := zip_fst_getElem? hj
        have := hfmin j hjf
        simp only [decide_eq_true_eq] at this
        have hjlen : j < l.keys.length := by omega
        rw [List.getElem?_eq_getElem hjlen] at hkj
        simp only [decide_eq_true_eq]
        intro he
        exact this (by rw [← Option.some.inj hkj] at he; exact he.symm)
      next => cases hj
    rw [htake, List.nil_append]
    have hpwd : ((l.keys.zip l.values).drop f).Pairwise (fun a b => a.1 ≤ b.1) :=
      List.Pairwise.sublist (List.drop_sublist _ _) (zip_pairwise_fst hs)
    have hlb : ∀ y ∈ (l.keys.zip l.values).drop f, k ≤ y.1 := by
      intro y hy
      obtain ⟨j, hj⟩ := List.mem_iff_getElem?.mp hy
      rw [List.getElem?_drop] at hj
      exact sorted_le_of_getElem? hs (by omega) hfk (zip_fst_getElem? hj)
    rw [← filter_eq_takeWhile_of_sorted hpwd hlb]

/-- C7 witness: on the concrete sorted store built from `(0,5), (1,7), (1,8)`
the hypotheses hold and `values_of 1` is the key-1 slice of the iteration. -/
theorem claim_c7_witness :
    ((insertAll (SortedList.new : SortedList Nat Nat) [(0, 5), (1, 7), (1, 8)]).keys.Sorted
      (· ≤ ·)) ∧
    ((insertAll (SortedList.new : SortedList Nat Nat) [(0, 5), (1, 7), (1, 8)]).keys.length =
      (insertAll (SortedList.new : SortedList Nat Nat) [(0, 5), (1, 7), (1, 8)]).values.length) ∧
    (insertAll (SortedList.new : SortedList Nat Nat) [(0, 5), (1, 7), (1, 8)]).values_of 1 =
      (((insertAll (SortedList.new : SortedList Nat Nat) [(0, 5), (1, 7), (1, 8)]).iter.filter
        (fun p => decide (p.1 = 1))).map Prod.snd) :=
  ⟨by decide, by decide,
    claim_c7 (insertAll SortedList.new [(0, 5), (1, 7), (1, 8)]) 1 (by decide) (by decide)⟩

/-- The comparison `extend` sorts by is transitive. -/
theorem sortByKey_le_trans (a b c : K × V) (hab : decide (a.1 ≤ b.1) = true)
    (hbc : decide (b.1 ≤ c.1) = true) : decide (a.1 ≤ c.1) = true := by
  simp only [decide_eq_true_eq] at *
  exact le_trans hab hbc

/-- The comparison `extend` sorts by is total. -/
theorem sortByKey_le_total (a b : K × V) :
    (decide (a.1 ≤ b.1) || decide (b.1 ≤ a.1)) = true := by
  rcases le_total a.1 b.1 with h | h <;> simp [h]

/-- Stability of the sort in `extend`: the pairs holding any fixed key keep
their relative batch order through `sort_by_key`. -/
theorem sortByKey_filter_key (batch : List (K × V)) (k : K) :
    (sortByKey batch).filter (fun p => decide (p.1 = k)) =
      batch.filter (fun p => decide (p.1 = k)) := by
  have hpw : (batch.filter (fun p => decide (p.1 = k))).Pairwise
      (fun a b : K × V => decide (a.1 ≤ b.1) = true) := by
    apply List.pairwise_of_forall_mem_list
    intro a ha b hb
    have ha' : a.1 = k := by simpa using (List.mem_filter.mp ha).2
    have hb' : b.1 = k := by simpa using (List.mem_filter.mp hb).2
    simp [ha', hb']
  have hsub : List.Sublist (batch.filter (fun p => decide (p.1 = k))) (sortByKey batch) :=
    List.sublist_mergeSort sortByKey_le_trans sortByKey_le_total hpw
      (List.filter_sublist batch)
  have hsub2 : List.Sublist (batch.filter (fun p => decide (p.1 = k)))
      ((sortByKey batch).filter (fun p => decide (p.1 = k))) := by
    have h := hsub.filter (fun p => decide (p.1 = k))
    rwa [List.filter_eq_self.mpr (fun a ha => (List.mem_filter.mp ha).2)] at h
  have hlen : ((sortByKey batch).filter (fun p => decide (p.1 = k))).length =
      (batch.filter (fun p => decide (p.1 = k))).length :=
    ((List.mergeSort_perm batch _).filter _).length_eq
  exact (hsub2.eq_of_length hlen.symm).symm

/-- The accepted pairs of a batch of inserts form a subsequence of the
batch. -/
theorem successfulInserts_sublist :
    ∀ (ps : List (K × V)) (l : SortedList K V), List.Sublist (successfulInserts l ps) ps := by
  intro ps
  induction ps with
  | nil => intro l; simp [successfulInserts]
  | cons p ps ih =>
    intro l
    rw [successfulInserts]
    cases h : (l.insert p.1 p.2).2 with
    | true => simpa [h] using List.Sublist.cons₂ p (ih (l.insert p.1 p.2).1)
    | false => simpa [h] using List.Sublist.cons p (ih (l.insert p.1 p.2).1)

/-- C10: `extend` sorts the batch with a stable sort by key - pairs sharing
a key keep their original relative order - and the values stored for any key
by `extend` on the empty store form, in order, a subsequence of that key's
batch values (a proper one exactly when duplicate pairs were rejected). -/
theorem claim_c10 (batch : List (K × V)) (k : K) :
    (sortByKey batch).filter (fun p => decide (p.1 = k)) =
      batch.filter (fun p => decide (p.1 = k)) ∧
    List.Sublist (valuesOfKey (SortedList.extend SortedList.new batch) k)
      ((batch.filter (fun p => decide (p.1 = k))).map Prod.snd) := by
  refine ⟨sortByKey_filter_key batch k, ?_⟩
  rw [SortedList.extend,
    insertAll_valuesOfKey k (sortByKey batch) SortedList.new List.Pairwise.nil rfl]
  have hnew : valuesOfKey (SortedList.new : SortedList K V) k = [] := by
    simp [valuesOfKey, SortedList.new, SortedList.iter]
  rw [hnew, List.nil_append, ← sortByKey_filter_key batch k]
  exact ((successfulInserts_sublist (sortByKey batch) SortedList.new).filter _).map _

/-- C8: `extend` on the empty store equals inserting the batch one pair at a
time in a sorted-by-key reordering of the batch (the stable sort the code
performs). -/
theorem claim_c8 (batch : List (K × V)) (hnd : batch.Nodup) :
    ∃ batch2 : List (K × V), batch2.Perm batch ∧
      batch2.Pairwise (fun a b => a.1 ≤ b.1) ∧
      SortedList.extend SortedList.new batch = insertAll SortedList.new batch2 := by
  refine ⟨sortByKey batch, List.mergeSort_perm batch _, ?_, rfl⟩
  have h := List.sorted_mergeSort sortByKey_le_trans sortByKey_le_total batch
  exact h.imp (fun hab => by simpa using hab)

/-- C8 witness: a concrete duplicate-free batch. -/
theorem claim_c8_witness :
    ([((1 : Nat), (2 : Nat)), (0, 5)].Nodup) ∧
    (∃ batch2 : List (Nat × Nat), batch2.Perm [(1, 2), (0, 5)] ∧
      batch2.Pairwise (fun a b => a.1 ≤ b.1) ∧
      SortedList.extend SortedList.new [(1, 2), (0, 5)] = insertAll SortedList.new batch2) :=
  ⟨by decide, claim_c8 [(1, 2), (0, 5)] (by decide)⟩

/-- C1 (refuted - evaluation of the code at the failing input): inserting
`(0,0)`, then `(0,1)`, then `(0,0)` again makes the third call return `true`
and store the pair `(0,0)` twice, although an identical pair already existed:
`binary_search` lands on index 1 of the key run `[0, 0]` and the duplicate
scan starts there, never seeing the equal pair at index 0. -/
theorem claim_c1 :
    (((insertAll (SortedList.new : SortedList Nat Nat) [(0, 0), (0, 1)]).insert 0 0).2 =
      true) ∧
    ((0, 0) ∈ (insertAll (SortedList.new : SortedList Nat Nat) [(0, 0), (0, 1)]).iter) ∧
    (((insertAll (SortedList.new : SortedList Nat Nat) [(0, 0), (0, 1)]).insert 0 0).1.iter =
      [(0, 0), (0, 1), (0, 0)]) := by decide

/-- C4 (refuted - evaluation of the code at the failing input): with the
store holding the single pair `(0,0)`, resolving the start bound
`Included 1` binary-searches to the insertion point `1 = len` and
`look_left_from` immediately reads `keys[1]`, out of bounds - the call
panics (modelled as `none`) instead of returning the empty range. -/
theorem claim_c4 :
    (insertAll (SortedList.new : SortedList Nat Nat) [(0, 0)]).range
      (Bound.Included 1) Bound.Unbounded = none := by decide

/-- C5 (refuted - evaluation of the code at the failing input): on the store
`[(0,0), (1,1)]` the query `range(Included 1, Included 1)` yields
`[(0,0), (1,1)]` while `values_of 1` yields `[1]`: the left walk of the
start bound stops at position 0 without checking the key there and
`unwrap_or(0)` treats that as "run starts at index 0". -/
theorem claim_c5 :
    ((insertAll (SortedList.new : SortedList Nat Nat) [(0, 0), (1, 1)]).range
      (Bound.Included 1) (Bound.Included 1) = some [(0, 0), (1, 1)]) ∧
    ((insertAll (SortedList.new : SortedList Nat Nat) [(0, 0), (1, 1)]).values_of 1 = [1]) ∧
    ((insertAll (SortedList.new : SortedList Nat Nat) [(0, 0), (1, 1)]).range
      (Bound.Included 1) (Bound.Included 1) ≠
      some (((insertAll (SortedList.new : SortedList Nat Nat) [(0, 0), (1, 1)]).values_of
        1).map (fun v => (1, v)))) := by decide
